import Mathlib

/-!
Verification of the thread-reconstruction and timeline-merge engine of
`gh-prview` (`api.go`): `groupIntoThreads`, the review annotation performed in
`LoadPR`, and the timeline construction performed in `RenderPR`.

Modelling conventions:

* `time.Time` values are modelled as `Int` timestamps; `t.Before u` is `t < u`.
* `int64` identifiers are modelled as `Int`; the program performs no
  arithmetic on them, only equality tests and map lookups.
* The Go maps in this code are only ever read through keyed lookups (they are
  never iterated), so a map is modelled as an association list whose lookup
  returns the most recent binding; `updateMap m k v` shadows any older binding
  of `k`, which is extensionally the Go map assignment `m[k] = v`.
* `sort.Slice` is a standard-library call.  Its documentation specifies that
  it sorts the slice according to the provided less function and that the
  sort is "not guaranteed to be stable" (Go toolchains implement it with a
  stable insertion sort for ranges of at most 12 elements and an unstable
  pdqsort, formerly introsort, above that).  The embedding therefore takes
  the sorting function as a parameter (`SortFamily`) constrained only by the
  documented contract (`SortOK`): for the key-based less functions this
  program uses, the result is a permutation of the input that is
  non-decreasing in the sort key.  `goodSort` (a conforming sort that is
  stable) and `badSort` (a conforming sort that reverses the order of
  equal-key elements) are two concrete instances used in witnesses and
  counterexamples.
* The parent-chain walk in `groupIntoThreads` is an unbounded `for` loop; it
  is modelled by the fuel-indexed `findRoot`, where divergence of the Go loop
  at a start id is `findRoot` returning `none` at every fuel.  `buildGroups`
  runs each walk with fuel `comments.length + 1`: a walk of the Go loop that
  terminates at all breaks within that many iterations, because every
  iteration that does not break moves to the parent id of a distinct stored
  comment.
-/

namespace Prview

/-- Model of the fields of `Comment` (api.go) used by the thread and timeline
logic: `ID`, `CreatedAt`, `InReplyToID` (a `*int64`; `none` models nil) and
`PullRequestReviewID` (0 when the JSON field is absent). -/
structure Comment where
  id : Int
  createdAt : Int
  inReplyToID : Option Int
  pullRequestReviewID : Int
deriving DecidableEq, Repr

/-- Model of `CommentThread` (api.go): a thread of comments on one location. -/
structure CommentThread where
  comments : List Comment
deriving DecidableEq, Repr

/-- Model of the fields of `Review` (api.go) used here: `ID`, `SubmittedAt`,
and the two fields populated by `LoadPR`: `Threads` and `ReplyCount`. -/
structure Review where
  id : Int
  submittedAt : Int
  threads : List CommentThread
  replyCount : Nat
deriving DecidableEq, Repr

/-- Model of the fields of `Commit` (api.go) used here: `SHA` and the
committer date `CreatedAt`. -/
structure Commit where
  sha : String
  createdAt : Int
deriving DecidableEq, Repr

/-- Model of the fields of `PullRequest` (api.go) consumed by the timeline
construction in `RenderPR`: the annotated comment, review and commit lists. -/
structure PullRequest where
  comments : List Comment
  reviews : List Review
  commits : List Commit
deriving DecidableEq, Repr

/-- Keyed lookup in the association-list model of a Go map: the most recent
binding wins, because `updateMap` shadows older bindings. -/
def lookupMap {β : Type} (m : List (Int × β)) (k : Int) : Option β :=
  (m.find? (fun p => p.1 == k)).map (fun p => p.2)

/-- Go map assignment `m[k] = v`, modelled by shadowing.  Extensionally equal
to overwrite-in-place, and the program never iterates these maps. -/
def updateMap {β : Type} (m : List (Int × β)) (k : Int) (v : β) : List (Int × β) :=
  (k, v) :: m

/-- Model of the `commentByID` map of `groupIntoThreads` (api.go lines
341-344): built by forward iteration with overwrite, so when several comments
share an id the last one wins. -/
def commentByID (cs : List Comment) (k : Int) : Option Comment :=
  cs.reverse.find? (fun c => c.id == k)

/-- Fuel-indexed model of the parent-chain walk in `groupIntoThreads` (api.go
lines 354-361): starting from `rootID`, the loop breaks - returning the
current `rootID` - as soon as the id is not in the map or refers to a comment
with nil `InReplyToID`, and otherwise steps to that comment's parent id.
`none` means the Go loop has not broken within `fuel` iterations; the Go loop
diverges at `rootID` exactly when this is `none` for every fuel. -/
def findRoot (byID : Int → Option Comment) : Nat → Int → Option Int
  | 0, _ => none
  | fuel + 1, rootID =>
    match byID rootID with
    | none => some rootID
    | some parent =>
      match parent.inReplyToID with
      | none => some rootID
      | some q => findRoot byID fuel q

/-- The Go parent-chain walk diverges when started at `start`. -/
def WalkDiverges (byID : Int → Option Comment) (start : Int) : Prop :=
  ∀ fuel : Nat, findRoot byID fuel start = none

/-- The mutable state of the grouping loop of `groupIntoThreads` (api.go
lines 346-364): the `rootIDs` slice and the `rootToReplies` map. -/
structure GroupState where
  rootIDs : List Int
  rootToReplies : List (Int × List Comment)
deriving DecidableEq, Repr

/-- Go read `rootToReplies[k]`: a missing key reads as the nil slice. -/
def getGroup (m : List (Int × List Comment)) (k : Int) : List Comment :=
  (lookupMap m k).getD []

/-- One iteration of the grouping loop of `groupIntoThreads` (api.go lines
349-364).  A comment with nil `InReplyToID` appends its id to `rootIDs` and
resets `rootToReplies[id]` to the singleton `[c]` (overwriting any earlier
content).  A reply walks the parent chain and appends itself to the group of
the id the walk returns; `none` propagates divergence of the walk. -/
def processComment (byID : Int → Option Comment) (fuel : Nat)
    (st : GroupState) (c : Comment) : Option GroupState :=
  match c.inReplyToID with
  | none =>
    some { rootIDs := st.rootIDs ++ [c.id],
           rootToReplies := updateMap st.rootToReplies c.id [c] }
  | some p =>
    match findRoot byID fuel p with
    | none => none
    | some rootID =>
      some { st with
             rootToReplies :=
               updateMap st.rootToReplies rootID
                 (getGroup st.rootToReplies rootID ++ [c]) }

/-- The grouping phase of `groupIntoThreads` (api.go lines 341-364), as a fold
of `processComment` over the input.  The fuel `cs.length + 1` is enough for
every terminating walk, so the result is `none` exactly when the Go code
diverges on some comment's parent chain. -/
def buildGroups (cs : List Comment) : Option GroupState :=
  List.foldlM (processComment (commentByID cs) (cs.length + 1))
    { rootIDs := [], rootToReplies := [] } cs

/-- The type of the `sort.Slice` parameter of the embedding: a sorting
function usable at every element type. -/
def SortFamily : Type 1 :=
  {α : Type} → (α → α → Bool) → List α → List α

/-- The documented contract of Go's `sort.Slice` for the key-based less
functions this program uses (`fun a b => key a < key b` with `Int` keys): the
result is a permutation of the input, non-decreasing in the key.  Stability
is deliberately absent: `sort.Slice` is documented as "not guaranteed to be
stable". -/
def SortOK (sortBy : SortFamily) : Prop :=
  ∀ {α : Type} (key : α → Int) (l : List α),
    (sortBy (fun a b => decide (key a < key b)) l).Perm l ∧
    (sortBy (fun a b => decide (key a < key b)) l).Pairwise
      (fun a b => key a ≤ key b)

/-- Insert `a` into `l` just before the first element `b` with `less a b`,
hence after any run of elements whose key equals the key of `a`. -/
def insertBy {α : Type} (less : α → α → Bool) (a : α) : List α → List α
  | [] => [a]
  | b :: t => if less a b then a :: b :: t else b :: insertBy less a t

/-- Left-to-right insertion sort.  For a strict key-based less function this
is a stable sort. -/
def sortInsert {α : Type} (less : α → α → Bool) (l : List α) : List α :=
  l.foldl (fun acc a => insertBy less a acc) []

/-- A conforming implementation of the `sort.Slice` contract that happens to
be stable (insertion sort on the input). -/
def goodSort : SortFamily :=
  fun less l => sortInsert less l

/-- A conforming implementation of the `sort.Slice` contract that reverses
the relative order of equal-key elements (insertion sort on the reversed
input). -/
def badSort : SortFamily :=
  fun less l => sortInsert less l.reverse

/-- The sort key of the `rootIDs` sort in `groupIntoThreads` (api.go lines
366-368): the creation time of the comment the map holds for the id.  For the
ids in `rootIDs` the lookup always succeeds, so the 0 default is never
consulted there. -/
def rootKey (byID : Int → Option Comment) (k : Int) : Int :=
  match byID k with
  | some c => c.createdAt
  | none => 0

/-- The assembly phase of `groupIntoThreads` (api.go lines 366-379): sort the
root ids by the creation time of their comment, and emit, per root id in that
order, the thread holding that id's group sorted by creation time. -/
def assembleThreads (sortBy : SortFamily) (byID : Int → Option Comment)
    (st : GroupState) : List CommentThread :=
  (sortBy (fun i j => decide (rootKey byID i < rootKey byID j)) st.rootIDs).map
    (fun rootID =>
      { comments :=
          sortBy (fun a b => decide (a.createdAt < b.createdAt))
            (getGroup st.rootToReplies rootID) })

/-- Model of `groupIntoThreads` (api.go lines 340-380), parameterized by the
`sort.Slice` implementation.  `none` models divergence of the parent-chain
walk. -/
def groupIntoThreads (sortBy : SortFamily) (cs : List Comment) :
    Option (List CommentThread) :=
  (buildGroups cs).map (assembleThreads sortBy (commentByID cs))

/-- Model of the `threadsByReview` map built in `LoadPR` (api.go lines
307-313): every nonempty thread is appended to the list of the review id
carried by its first comment. -/
def threadsByReview (ts : List CommentThread) : List (Int × List CommentThread) :=
  ts.foldl
    (fun m t =>
      match t.comments with
      | [] => m
      | c :: _ =>
        updateMap m c.pullRequestReviewID
          ((lookupMap m c.pullRequestReviewID).getD [] ++ [t]))
    []

/-- Model of the `replyCountByReview` map built in `LoadPR` (api.go lines
315-320): every comment with non-nil `InReplyToID` increments the counter of
its own `PullRequestReviewID`. -/
def replyCountByReview (cs : List Comment) : List (Int × Nat) :=
  cs.foldl
    (fun m c =>
      match c.inReplyToID with
      | some _ =>
        updateMap m c.pullRequestReviewID
          ((lookupMap m c.pullRequestReviewID).getD 0 + 1)
      | none => m)
    []

/-- Model of the review annotation loop of `LoadPR` (api.go lines 322-325):
each review receives the threads filed under its id and the reply count filed
under its id; a missing key reads as the zero value. -/
def annotateReviews (reviews : List Review) (ts : List CommentThread)
    (reviewComments : List Comment) : List Review :=
  reviews.map (fun r =>
    { r with
      threads := (lookupMap (threadsByReview ts) r.id).getD [],
      replyCount := (lookupMap (replyCountByReview reviewComments) r.id).getD 0 })

/-- Model of `TimelineItem` (api.go lines 259-265): the `Type` tag, the sort
timestamp, and the three payload pointers (nil modelled as `none`). -/
structure TimelineItem where
  itemType : String
  createdAt : Int
  comment : Option Comment
  review : Option Review
  commit : Option Commit
deriving DecidableEq, Repr

/-- A standalone comment wrapped as a timeline item (api.go lines 403-410):
tag "comment", keyed on the comment's creation time. -/
def commentItem (c : Comment) : TimelineItem :=
  { itemType := "comment", createdAt := c.createdAt,
    comment := some c, review := none, commit := none }

/-- A review wrapped as a timeline item (api.go lines 412-419): tag "review",
keyed on the review's submission time. -/
def reviewItem (r : Review) : TimelineItem :=
  { itemType := "review", createdAt := r.submittedAt,
    comment := none, review := some r, commit := none }

/-- A commit wrapped as a timeline item (api.go lines 421-428): tag "commit",
keyed on the commit's creation time. -/
def commitItem (k : Commit) : TimelineItem :=
  { itemType := "commit", createdAt := k.createdAt,
    comment := none, review := none, commit := some k }

/-- The timeline before sorting (api.go lines 401-428): the concatenation
comments, then reviews, then commits. -/
def timelineBase (pr : PullRequest) : List TimelineItem :=
  pr.comments.map commentItem ++ pr.reviews.map reviewItem ++
    pr.commits.map commitItem

/-- Model of the timeline construction of `RenderPR` (api.go lines 401-432):
the concatenated items sorted ascending by timestamp with `sort.Slice`. -/
def buildTimeline (sortBy : SortFamily) (pr : PullRequest) : List TimelineItem :=
  sortBy (fun a b => decide (a.createdAt < b.createdAt)) (timelineBase pr)

/-! ### The two concrete conforming sorts satisfy the `sort.Slice` contract -/

theorem insertBy_perm {α : Type} (less : α → α → Bool) (a : α) :
    ∀ l : List α, (insertBy less a l).Perm (a :: l)
  | [] => List.Perm.refl _
  | b :: t => by
    by_cases h : less a b = true
    · simp [insertBy, h]
    · simp only [insertBy, if_neg h]
      exact ((insertBy_perm less a t).cons b).trans (List.Perm.swap a b t)

theorem foldl_insertBy_perm {α : Type} (less : α → α → Bool) :
    ∀ (l acc : List α),
      (l.foldl (fun acc a => insertBy less a acc) acc).Perm (acc ++ l)
  | [], acc => by simp
  | a :: t, acc => by
    simp only [List.foldl_cons]
    refine (foldl_insertBy_perm less t (insertBy less a acc)).trans ?_
    refine ((insertBy_perm less a acc).append_right t).trans ?_
    exact List.perm_middle.symm

theorem insertBy_pairwise {α : Type} (key : α → Int) (a : α) :
    ∀ l : List α, l.Pairwise (fun x y => key x ≤ key y) →
      (insertBy (fun x y => decide (key x < key y)) a l).Pairwise
        (fun x y => key x ≤ key y) := by
  intro l
  induction l with
  | nil => intro _; simp [insertBy]
  | cons b t ih =>
    intro h
    rcases List.pairwise_cons.mp h with ⟨hb, ht⟩
    simp only [insertBy]
    by_cases hab : key a < key b
    · rw [if_pos (by simpa using hab)]
      refine List.pairwise_cons.mpr ⟨?_, h⟩
      intro x hx
      rcases List.mem_cons.mp hx with rfl | hx
      · exact le_of_lt hab
      · exact le_trans (le_of_lt hab) (hb x hx)
    · rw [if_neg (by simpa using hab)]
      refine List.pairwise_cons.mpr ⟨?_, ih ht⟩
      intro x hx
      have hx' : x ∈ a :: t := (insertBy_perm _ a t).mem_iff.mp hx
      rcases List.mem_cons.mp hx' with rfl | hx'
      · omega
      · exact hb x hx'

theorem foldl_insertBy_pairwise {α : Type} (key : α → Int) :
    ∀ (l acc : List α), acc.Pairwise (fun x y => key x ≤ key y) →
      (l.foldl (fun acc a =>
          insertBy (fun x y => decide (key x < key y)) a acc) acc).Pairwise
        (fun x y => key x ≤ key y)
  | [], acc => fun h => h
  | a :: t, acc => fun h => by
    simp only [List.foldl_cons]
    exact foldl_insertBy_pairwise key t _ (insertBy_pairwise key a acc h)

theorem sortOK_goodSort : SortOK goodSort := by
  intro α key l
  constructor
  · simpa [goodSort, sortInsert] using foldl_insertBy_perm
      (fun x y => decide (key x < key y)) l []
  · simpa [goodSort, sortInsert] using foldl_insertBy_pairwise key l []
      (List.Pairwise.nil)

theorem sortOK_badSort : SortOK badSort := by
  intro α key l
  constructor
  · refine List.Perm.trans ?_ (List.reverse_perm l)
    simpa [badSort, sortInsert] using foldl_insertBy_perm
      (fun x y => decide (key x < key y)) l.reverse []
  · simpa [badSort, sortInsert] using foldl_insertBy_pairwise key l.reverse []
      (List.Pairwise.nil)

/-! ### Basic lemmas about the map model and the walk -/

theorem lookupMap_updateMap_self {β : Type} (m : List (Int × β)) (k : Int) (v : β) :
    lookupMap (updateMap m k v) k = some v := by
  simp [lookupMap, updateMap]

theorem lookupMap_updateMap_ne {β : Type} (m : List (Int × β)) {k k' : Int} (v : β)
    (h : k' ≠ k) : lookupMap (updateMap m k v) k' = lookupMap m k' := by
  unfold lookupMap updateMap
  rw [List.find?_cons_of_neg]
  simp only [beq_iff_eq]
  exact fun e => h e.symm

theorem getGroup_updateMap_self (m : List (Int × List Comment)) (k : Int)
    (v : List Comment) : getGroup (updateMap m k v) k = v := by
  simp [getGroup, lookupMap_updateMap_self]

theorem getGroup_updateMap_ne (m : List (Int × List Comment)) {k k' : Int}
    (v : List Comment) (h : k' ≠ k) :
    getGroup (updateMap m k v) k' = getGroup m k' := by
  simp [getGroup, lookupMap_updateMap_ne m v h]

theorem commentByID_eq_none {cs : List Comment} {k : Int}
    (h : k ∉ cs.map (fun c => c.id)) : commentByID cs k = none := by
  unfold commentByID
  rw [List.find?_eq_none]
  intro c hc
  simp only [beq_iff_eq]
  intro e
  exact h (List.mem_map.mpr ⟨c, List.mem_reverse.mp hc, e⟩)

theorem find?_key_eq_some {α : Type} (f : α → Int) :
    ∀ (l : List α) (c : α), (l.map f).Nodup → c ∈ l →
      l.find? (fun x => f x == f c) = some c := by
  intro l
  induction l with
  | nil => intro c _ hc; cases hc
  | cons a t ih =>
    intro c hnd hc
    simp only [List.map_cons, List.nodup_cons] at hnd
    rcases List.mem_cons.mp hc with rfl | hc
    · rw [List.find?_cons_of_pos _ (by simp)]
    · have hne : f a ≠ f c := by
        intro e
        exact hnd.1 (e ▸ List.mem_map_of_mem f hc)
      rw [List.find?_cons_of_neg _ (by simpa using hne)]
      exact ih c hnd.2 hc

theorem commentByID_of_mem {cs : List Comment} {c : Comment}
    (hnd : (cs.map (fun x => x.id)).Nodup) (hc : c ∈ cs) :
    commentByID cs c.id = some c := by
  unfold commentByID
  have hnd' : (cs.reverse.map (fun x => x.id)).Nodup := by
    rw [List.map_reverse]
    exact (List.nodup_reverse).mpr hnd
  exact find?_key_eq_some (fun x => x.id) cs.reverse c hnd' (List.mem_reverse.mpr hc)

theorem findRoot_of_none {byID : Int → Option Comment} {p : Int}
    (h : byID p = none) (fuel : Nat) : findRoot byID (fuel + 1) p = some p := by
  simp [findRoot, h]

theorem findRoot_of_root {byID : Int → Option Comment} {p : Int} {c : Comment}
    (h : byID p = some c) (hc : c.inReplyToID = none) (fuel : Nat) :
    findRoot byID (fuel + 1) p = some p := by
  simp [findRoot, h, hc]

theorem findRoot_step {byID : Int → Option Comment} {p q : Int} {c : Comment}
    (h : byID p = some c) (hc : c.inReplyToID = some q) (fuel : Nat) :
    findRoot byID (fuel + 1) p = findRoot byID fuel q := by
  simp [findRoot, h, hc]

/-! ### The grouping fold: auxiliary invariants -/

theorem foldlM_processComment_cons_some {byID : Int → Option Comment} {F : Nat}
    {c : Comment} {t : List Comment} {st st' : GroupState}
    (h : List.foldlM (processComment byID F) st (c :: t) = some st') :
    ∃ st₁, processComment byID F st c = some st₁ ∧
      List.foldlM (processComment byID F) st₁ t = some st' := by
  rw [List.foldlM_cons] at h
  cases hp : processComment byID F st c with
  | none => rw [hp] at h; simp at h
  | some st₁ =>
    rw [hp] at h
    simp at h
    exact ⟨st₁, rfl, h⟩

theorem foldlM_processComment_isSome (byID : Int → Option Comment) (F : Nat) :
    ∀ (l : List Comment) (st : GroupState),
      (∀ c ∈ l, ∀ p, c.inReplyToID = some p → (findRoot byID F p).isSome) →
      ∃ st', List.foldlM (processComment byID F) st l = some st' := by
  intro l
  induction l with
  | nil => intro st _; exact ⟨st, rfl⟩
  | cons c t ih =>
    intro st h
    have hsome : (processComment byID F st c).isSome := by
      cases hcr : c.inReplyToID with
      | none => simp [processComment, hcr]
      | some p =>
        rcases Option.isSome_iff_exists.mp
          (h c (List.mem_cons_self c t) p hcr) with ⟨r, hr⟩
        simp [processComment, hcr, hr]
    obtain ⟨st₁, hst₁⟩ := Option.isSome_iff_exists.mp hsome
    obtain ⟨st', hst'⟩ := ih st₁ (fun d hd => h d (List.mem_cons_of_mem _ hd))
    exact ⟨st', by simp [List.foldlM_cons, hst₁, hst']⟩

theorem getGroup_mono (byID : Int → Option Comment) (F : Nat) :
    ∀ (l : List Comment) (st st' : GroupState) (k : Int),
      List.foldlM (processComment byID F) st l = some st' →
      (∀ c ∈ l, c.id ≠ k) →
      ∀ x ∈ getGroup st.rootToReplies k, x ∈ getGroup st'.rootToReplies k := by
  intro l
  induction l with
  | nil =>
    intro st st' k h _ x hx
    simp only [List.foldlM_nil, Option.pure_def, Option.some.injEq] at h
    exact h ▸ hx
  | cons c t ih =>
    intro st st' k h hne x hx
    obtain ⟨st₁, h₁, h₂⟩ := foldlM_processComment_cons_some h
    refine ih st₁ st' k h₂ (fun d hd => hne d (List.mem_cons_of_mem _ hd)) x ?_
    have hck : k ≠ c.id := (hne c (List.mem_cons_self c t)).symm
    cases hcr : c.inReplyToID with
    | none =>
      simp only [processComment, hcr, Option.some.injEq] at h₁
      rw [← h₁]
      simpa [getGroup_updateMap_ne _ _ hck] using hx
    | some p =>
      simp only [processComment, hcr] at h₁
      cases hr : findRoot byID F p with
      | none => rw [hr] at h₁; simp at h₁
      | some r =>
        rw [hr] at h₁
        simp only [Option.some.injEq] at h₁
        rw [← h₁]
        by_cases hkr : k = r
        · subst hkr
          rw [getGroup_updateMap_self]
          exact List.mem_append_left _ hx
        · simpa [getGroup_updateMap_ne _ _ hkr] using hx

theorem mem_getGroup_of_reply (byID : Int → Option Comment) (F : Nat) :
    ∀ (l : List Comment) (st st' : GroupState),
      List.foldlM (processComment byID F) st l = some st' →
      ∀ c ∈ l, ∀ p r, c.inReplyToID = some p → findRoot byID F p = some r →
        (∀ d ∈ l, d.id ≠ r) →
        c ∈ getGroup st'.rootToReplies r := by
  intro l
  induction l with
  | nil => intro st st' _ c hc; cases hc
  | cons a t ih =>
    intro st st' h c hc p r hcr hfr hner
    obtain ⟨st₁, h₁, h₂⟩ := foldlM_processComment_cons_some h
    rcases List.mem_cons.mp hc with rfl | hc
    · simp only [processComment, hcr, hfr, Option.some.injEq] at h₁
      refine getGroup_mono byID F t st₁ st' r h₂
        (fun d hd => hner d (List.mem_cons_of_mem _ hd)) c ?_
      rw [← h₁]
      rw [getGroup_updateMap_self]
      exact List.mem_append_right _ (List.mem_singleton.mpr rfl)
    · exact ih st₁ st' h₂ c hc p r hcr hfr
        (fun d hd => hner d (List.mem_cons_of_mem _ hd))

theorem rootIDs_spec (byID : Int → Option Comment) (F : Nat) :
    ∀ (l : List Comment) (st st' : GroupState),
      List.foldlM (processComment byID F) st l = some st' →
      st'.rootIDs = st.rootIDs ++
        (l.filter (fun c => c.inReplyToID.isNone)).map (fun c => c.id) := by
  intro l
  induction l with
  | nil =>
    intro st st' h
    simp only [List.foldlM_nil, Option.pure_def, Option.some.injEq] at h
    simp [← h]
  | cons c t ih =>
    intro st st' h
    obtain ⟨st₁, h₁, h₂⟩ := foldlM_processComment_cons_some h
    cases hcr : c.inReplyToID with
    | none =>
      simp only [processComment, hcr, Option.some.injEq] at h₁
      rw [ih st₁ st' h₂, ← h₁]
      simp [hcr, List.append_assoc]
    | some p =>
      simp only [processComment, hcr] at h₁
      cases hr : findRoot byID F p with
      | none => rw [hr] at h₁; simp at h₁
      | some r =>
        rw [hr] at h₁
        simp only [Option.some.injEq] at h₁
        rw [ih st₁ st' h₂, ← h₁]
        simp [hcr]

theorem getGroup_sublist (byID : Int → Option Comment) (F : Nat) :
    ∀ (l : List Comment) (st st' : GroupState) (base : List Comment),
      List.foldlM (processComment byID F) st l = some st' →
      (∀ k, (getGroup st.rootToReplies k).Sublist base) →
      ∀ k, (getGroup st'.rootToReplies k).Sublist (base ++ l) := by
  intro l
  induction l with
  | nil =>
    intro st st' base h hbase k
    simp only [List.foldlM_nil, Option.pure_def, Option.some.injEq] at h
    simpa [← h] using hbase k
  | cons c t ih =>
    intro st st' base h hbase k
    obtain ⟨st₁, h₁, h₂⟩ := foldlM_processComment_cons_some h
    have hstep : ∀ k', (getGroup st₁.rootToReplies k').Sublist (base ++ [c]) := by
      intro k'
      cases hcr : c.inReplyToID with
      | none =>
        simp only [processComment, hcr, Option.some.injEq] at h₁
        rw [← h₁]
        by_cases hk : k' = c.id
        · subst hk
          rw [getGroup_updateMap_self]
          exact List.sublist_append_right base [c]
        · rw [getGroup_updateMap_ne _ _ hk]
          exact (hbase k').trans (List.sublist_append_left base [c])
      | some p =>
        simp only [processComment, hcr] at h₁
        cases hr : findRoot byID F p with
        | none => rw [hr] at h₁; simp at h₁
        | some r =>
          rw [hr] at h₁
          simp only [Option.some.injEq] at h₁
          rw [← h₁]
          by_cases hk : k' = r
          · subst hk
            rw [getGroup_updateMap_self]
            exact (hbase k').append (List.Sublist.refl [c])
          · rw [getGroup_updateMap_ne _ _ hk]
            exact (hbase k').trans (List.sublist_append_left base [c])
    have := ih st₁ st' (base ++ [c]) h₂ hstep k
    simpa [List.append_assoc] using this

theorem flatten_map_perm {β : Type} {f g : β → List Comment} :
    ∀ L : List β, (∀ k ∈ L, (f k).Perm (g k)) →
      ((L.map f).flatten).Perm ((L.map g).flatten) := by
  intro L
  induction L with
  | nil => intro _; simp
  | cons a t ih =>
    intro h
    simp only [List.map_cons, List.flatten_cons]
    exact (h a (List.mem_cons_self a t)).append
      (ih (fun k hk => h k (List.mem_cons_of_mem _ hk)))

theorem perm_insert_middle {α : Type} (F₁ G F₂ pre : List α) (c : α)
    (h : (F₁ ++ (G ++ F₂)).Perm pre) :
    (F₁ ++ (G ++ [c] ++ F₂)).Perm (pre ++ [c]) := by
  have h1 : (G ++ [c] ++ F₂).Perm (G ++ F₂ ++ [c]) := by
    rw [List.append_assoc, List.append_assoc]
    exact List.Perm.append_left G List.perm_append_comm
  have h2 : (F₁ ++ (G ++ [c] ++ F₂)).Perm (F₁ ++ (G ++ F₂) ++ [c]) := by
    rw [List.append_assoc F₁ (G ++ F₂) [c]]
    exact List.Perm.append_left F₁ h1
  exact h2.trans (h.append_right [c])

theorem nodup_middle_not_mem {α : Type} {f : α → Int} {pre suf : List α} {c : α}
    (hnd : ((pre ++ c :: suf).map f).Nodup) :
    f c ∉ pre.map f ∧ f c ∉ suf.map f := by
  rw [List.map_append, List.map_cons, List.nodup_append] at hnd
  rcases hnd with ⟨_, hcons, hdis⟩
  exact ⟨fun hmem => hdis hmem (List.mem_cons_self _ _),
    (List.nodup_cons.mp hcons).1⟩

/-- Hypothesis of the amended per-comment conservation claim: every reply's
parent chain resolves, within the fuel the model uses, to the id of a comment
with no parent reference that occurs in the input strictly before the reply. -/
def RootsPrecede (cs : List Comment) : Prop :=
  ∀ pre c suf, cs = pre ++ c :: suf → ∀ p, c.inReplyToID = some p →
    ∃ r, r ∈ pre ∧ r.inReplyToID = none ∧
      findRoot (commentByID cs) (cs.length + 1) p = some r.id

theorem buildGroups_perm_aux (cs : List Comment)
    (hnd : (cs.map (fun c => c.id)).Nodup) (hrp : RootsPrecede cs) :
    ∀ (suf pre : List Comment) (st : GroupState),
      cs = pre ++ suf →
      st.rootIDs =
        (pre.filter (fun c => c.inReplyToID.isNone)).map (fun c => c.id) →
      ((st.rootIDs.map (getGroup st.rootToReplies)).flatten).Perm pre →
      (∀ k, getGroup st.rootToReplies k ≠ [] → k ∈ pre.map (fun c => c.id)) →
      ∃ st',
        List.foldlM (processComment (commentByID cs) (cs.length + 1)) st suf
          = some st' ∧
        st'.rootIDs =
          (cs.filter (fun c => c.inReplyToID.isNone)).map (fun c => c.id) ∧
        ((st'.rootIDs.map (getGroup st'.rootToReplies)).flatten).Perm cs := by
  intro suf
  induction suf with
  | nil =>
    intro pre st hsplit ha hc _
    rw [List.append_nil] at hsplit
    subst hsplit
    exact ⟨st, rfl, ha, hc⟩
  | cons c t ih =>
    intro pre st hsplit ha hc hd
    have hsplit' : cs = (pre ++ [c]) ++ t := by
      rw [hsplit, List.append_assoc]
      rfl
    have hcidpre : c.id ∉ pre.map (fun x => x.id) :=
      (nodup_middle_not_mem (f := fun x : Comment => x.id) (hsplit ▸ hnd)).1
    cases hcr : c.inReplyToID with
    | none =>
      -- a root comment: appends its id and resets its group to [c]
      have hempty : getGroup st.rootToReplies c.id = [] := by
        by_contra hne
        exact hcidpre (hd c.id hne)
      have hrootsub : ∀ k ∈ st.rootIDs, k ≠ c.id := by
        intro k hk hkc
        subst hkc
        rcases List.mem_map.mp (ha ▸ hk) with ⟨d, hdmem, hdid⟩
        exact hcidpre (List.mem_map.mpr
          ⟨d, List.filter_sublist pre |>.mem hdmem, hdid⟩)
      set st₁ : GroupState :=
        { rootIDs := st.rootIDs ++ [c.id],
          rootToReplies := updateMap st.rootToReplies c.id [c] } with hst₁def
      have hstep : processComment (commentByID cs) (cs.length + 1) st c
          = some st₁ := by
        simp [processComment, hcr, hst₁def]
      have ha' : st₁.rootIDs =
          ((pre ++ [c]).filter (fun x => x.inReplyToID.isNone)).map
            (fun x => x.id) := by
        simp [hst₁def, ha, List.filter_append, hcr]
      have hmapeq : st₁.rootIDs.map (getGroup st₁.rootToReplies)
          = st.rootIDs.map (getGroup st.rootToReplies) ++ [[c]] := by
        simp only [hst₁def, List.map_append]
        congr 1
        · refine List.map_congr_left ?_
          intro k hk
          exact getGroup_updateMap_ne _ _ (hrootsub k hk)
        · simp [getGroup_updateMap_self]
      have hc' : ((st₁.rootIDs.map (getGroup st₁.rootToReplies)).flatten).Perm
          (pre ++ [c]) := by
        rw [hmapeq, List.flatten_append]
        simpa using hc.append_right [c]
      have hd' : ∀ k, getGroup st₁.rootToReplies k ≠ [] →
          k ∈ (pre ++ [c]).map (fun x => x.id) := by
        intro k hk
        by_cases hkc : k = c.id
        · subst hkc
          simp
        · rw [hst₁def] at hk
          simp only at hk
          rw [getGroup_updateMap_ne _ _ hkc] at hk
          rw [List.map_append]
          exact List.mem_append_left _ (hd k hk)
      obtain ⟨st', hfold, hra, hpa⟩ := ih (pre ++ [c]) st₁ hsplit' ha' hc' hd'
      exact ⟨st', by simp [List.foldlM_cons, hstep, hfold], hra, hpa⟩
    | some p =>
      -- a reply: appended to the group of its resolved root id
      obtain ⟨r, hrpre, hrroot, hfr⟩ := hrp pre c t hsplit p hcr
      set st₁ : GroupState :=
        { st with
          rootToReplies :=
            updateMap st.rootToReplies r.id
              (getGroup st.rootToReplies r.id ++ [c]) } with hst₁def
      have hstep : processComment (commentByID cs) (cs.length + 1) st c
          = some st₁ := by
        simp [processComment, hcr, hfr, hst₁def]
      have hmemroot : r.id ∈ st.rootIDs := by
        rw [ha]
        exact List.mem_map.mpr
          ⟨r, List.mem_filter.mpr ⟨hrpre, by simp [hrroot]⟩, rfl⟩
      have hndroots : st.rootIDs.Nodup := by
        rw [ha]
        have hsub : ((pre.filter (fun c => c.inReplyToID.isNone)).map
            (fun c => c.id)).Sublist (cs.map (fun c => c.id)) := by
          refine List.Sublist.map _ ?_
          exact (List.filter_sublist pre).trans
            (hsplit ▸ List.sublist_append_left pre (c :: t))
        exact hsub.nodup hnd
      obtain ⟨R₁, R₂, hR⟩ := List.append_of_mem hmemroot
      have hnotR : r.id ∉ R₁ ∧ r.id ∉ R₂ := by
        rw [hR] at hndroots
        rw [List.nodup_append] at hndroots
        rcases hndroots with ⟨_, hcons, hdis⟩
        exact ⟨fun hmem => hdis hmem (List.mem_cons_self _ _),
          (List.nodup_cons.mp hcons).1⟩
      have hmapR₁ : R₁.map (getGroup st₁.rootToReplies)
          = R₁.map (getGroup st.rootToReplies) := by
        refine List.map_congr_left ?_
        intro k hk
        exact getGroup_updateMap_ne _ _ (fun e => hnotR.1 (e ▸ hk))
      have hmapR₂ : R₂.map (getGroup st₁.rootToReplies)
          = R₂.map (getGroup st.rootToReplies) := by
        refine List.map_congr_left ?_
        intro k hk
        exact getGroup_updateMap_ne _ _ (fun e => hnotR.2 (e ▸ hk))
      have hgr : getGroup st₁.rootToReplies r.id
          = getGroup st.rootToReplies r.id ++ [c] := by
        simp [hst₁def, getGroup_updateMap_self]
      have ha' : st₁.rootIDs =
          ((pre ++ [c]).filter (fun x => x.inReplyToID.isNone)).map
            (fun x => x.id) := by
        simp [hst₁def, ha, List.filter_append, hcr]
      have hc' : ((st₁.rootIDs.map (getGroup st₁.rootToReplies)).flatten).Perm
          (pre ++ [c]) := by
        have hre : st₁.rootIDs = R₁ ++ r.id :: R₂ := by
          rw [hst₁def]
          exact hR
        rw [hre, List.map_append, List.map_cons, hmapR₁, hmapR₂, hgr,
          List.flatten_append, List.flatten_cons]
        have hold : ((R₁.map (getGroup st.rootToReplies)).flatten ++
            ((getGroup st.rootToReplies r.id) ::
              R₂.map (getGroup st.rootToReplies)).flatten).Perm pre := by
          rw [← List.flatten_append, ← List.map_cons, ← List.map_append, ← hR]
          exact hc
        rw [List.flatten_cons] at hold
        exact perm_insert_middle _ _ _ pre c hold
      have hd' : ∀ k, getGroup st₁.rootToReplies k ≠ [] →
          k ∈ (pre ++ [c]).map (fun x => x.id) := by
        intro k hk
        by_cases hkr : k = r.id
        · subst hkr
          rw [List.map_append]
          exact List.mem_append_left _ (List.mem_map.mpr ⟨r, hrpre, rfl⟩)
        · rw [hst₁def] at hk
          simp only at hk
          rw [getGroup_updateMap_ne _ _ hkr] at hk
          rw [List.map_append]
          exact List.mem_append_left _ (hd k hk)
      obtain ⟨st', hfold, hra, hpa⟩ := ih (pre ++ [c]) st₁ hsplit' ha' hc' hd'
      exact ⟨st', by simp [List.foldlM_cons, hstep, hfold], hra, hpa⟩

/-! ### Sorted permutations with distinct keys are unique -/

theorem eq_of_perm_of_sorted_nodupkeys {α : Type} (key : α → Int) :
    ∀ (l₁ l₂ : List α), l₁.Perm l₂ →
      l₁.Pairwise (fun a b => key a ≤ key b) →
      l₂.Pairwise (fun a b => key a ≤ key b) →
      l₁.Pairwise (fun a b => key a ≠ key b) →
      l₁ = l₂ := by
  intro l₁
  induction l₁ with
  | nil =>
    intro l₂ hp _ _ _
    exact (hp.symm.eq_nil).symm
  | cons a t₁ ih =>
    intro l₂ hp hs₁ hs₂ hd
    cases l₂ with
    | nil => simpa using hp.eq_nil
    | cons b t₂ =>
      have hab : a = b := by
        by_contra hne
        have hbmem : b ∈ a :: t₁ := hp.mem_iff.mpr (List.mem_cons_self b t₂)
        have hamem : a ∈ b :: t₂ := hp.mem_iff.mp (List.mem_cons_self a t₁)
        have hb' : b ∈ t₁ := by
          rcases List.mem_cons.mp hbmem with h | h
          · exact absurd h.symm hne
          · exact h
        have ha' : a ∈ t₂ := by
          rcases List.mem_cons.mp hamem with h | h
          · exact absurd h hne
          · exact h
        have h₁ : key a ≤ key b := (List.pairwise_cons.mp hs₁).1 b hb'
        have h₂ : key b ≤ key a := (List.pairwise_cons.mp hs₂).1 a ha'
        have h₃ : key a ≠ key b := (List.pairwise_cons.mp hd).1 b hb'
        omega
      subst hab
      rw [ih t₂ hp.cons_inv (List.pairwise_cons.mp hs₁).2
        (List.pairwise_cons.mp hs₂).2 (List.pairwise_cons.mp hd).2]

/-! ### The review annotation maps, characterized -/

theorem threadsByReview_lookup :
    ∀ (ts : List CommentThread) (m : List (Int × List CommentThread)) (k : Int),
      (lookupMap (ts.foldl (fun m t =>
          match t.comments with
          | [] => m
          | c :: _ =>
            updateMap m c.pullRequestReviewID
              ((lookupMap m c.pullRequestReviewID).getD [] ++ [t])) m) k).getD []
        = (lookupMap m k).getD [] ++
          ts.filter (fun t =>
            match t.comments with
            | [] => false
            | c :: _ => c.pullRequestReviewID == k) := by
  intro ts
  induction ts with
  | nil => intro m k; simp
  | cons t rest ih =>
    intro m k
    simp only [List.foldl_cons]
    cases hco : t.comments with
    | nil =>
      simp only [hco]
      rw [ih]
      simp [List.filter_cons, hco]
    | cons c rest' =>
      simp only [hco]
      by_cases hk : c.pullRequestReviewID = k
      · rw [ih, hk, lookupMap_updateMap_self]
        simp [List.filter_cons, hco, hk]
      · rw [ih, lookupMap_updateMap_ne _ _ (fun e => hk e.symm)]
        simp [List.filter_cons, hco, hk]

theorem lookup_threadsByReview (ts : List CommentThread) (k : Int) :
    (lookupMap (threadsByReview ts) k).getD []
      = ts.filter (fun t =>
          match t.comments with
          | [] => false
          | c :: _ => c.pullRequestReviewID == k) := by
  have h := threadsByReview_lookup ts [] k
  simpa [threadsByReview, lookupMap] using h

theorem replyCountByReview_lookup :
    ∀ (cs : List Comment) (m : List (Int × Nat)) (k : Int),
      (lookupMap (cs.foldl (fun m c =>
          match c.inReplyToID with
          | some _ =>
            updateMap m c.pullRequestReviewID
              ((lookupMap m c.pullRequestReviewID).getD 0 + 1)
          | none => m) m) k).getD 0
        = (lookupMap m k).getD 0 +
          cs.countP (fun c =>
            c.inReplyToID.isSome && c.pullRequestReviewID == k) := by
  intro cs
  induction cs with
  | nil => intro m k; simp
  | cons c rest ih =>
    intro m k
    simp only [List.foldl_cons]
    cases hcr : c.inReplyToID with
    | none =>
      simp only [hcr]
      rw [ih]
      simp [List.countP_cons, hcr]
    | some p =>
      simp only [hcr]
      by_cases hk : c.pullRequestReviewID = k
      · rw [ih, hk, lookupMap_updateMap_self]
        simp only [Option.getD_some]
        rw [List.countP_cons]
        simp [hcr, hk]
        omega
      · rw [ih, lookupMap_updateMap_ne _ _ (fun e => hk e.symm)]
        rw [List.countP_cons]
        simp [hcr, hk]

theorem lookup_replyCountByReview (cs : List Comment) (k : Int) :
    (lookupMap (replyCountByReview cs) k).getD 0
      = cs.countP (fun c =>
          c.inReplyToID.isSome && c.pullRequestReviewID == k) := by
  have h := replyCountByReview_lookup cs [] k
  simpa [replyCountByReview, lookupMap] using h

/-! ### Claim C7: the timeline covers every item exactly once, tagged and
keyed correctly, in non-decreasing timestamp order -/

/-- Claim C7: for every annotated pull request and every implementation of
the `sort.Slice` contract, the timeline is a permutation of the tagged
concatenation comments-then-reviews-then-commits - so it covers every
standalone comment, review and commit exactly once, each wrapped with its
variant tag and keyed on creation time for comments and commits and
submission time for reviews - its length is exactly
`len(comments) + len(reviews) + len(commits)`, and it is non-decreasing in
timestamp. -/
theorem c7_timeline_complete (sortBy : SortFamily) (hs : SortOK sortBy)
    (pr : PullRequest) :
    (buildTimeline sortBy pr).Perm (timelineBase pr) ∧
    (buildTimeline sortBy pr).length =
      pr.comments.length + pr.reviews.length + pr.commits.length ∧
    (buildTimeline sortBy pr).Pairwise (fun a b => a.createdAt ≤ b.createdAt) := by
  have h := hs (fun it : TimelineItem => it.createdAt) (timelineBase pr)
  refine ⟨h.1, ?_, h.2⟩
  have hlen : (buildTimeline sortBy pr).length = (timelineBase pr).length :=
    h.1.length_eq
  rw [hlen]
  simp [timelineBase]
  omega

/-- Concrete input for the C7 witness. -/
def c7pr : PullRequest :=
  { comments := [⟨1, 30, none, 0⟩, ⟨2, 10, none, 0⟩],
    reviews := [⟨100, 20, [], 0⟩],
    commits := [⟨"abc1234", 5⟩] }

theorem c7_timeline_complete_witness :
    (buildTimeline goodSort c7pr).Perm (timelineBase c7pr) ∧
    (buildTimeline goodSort c7pr).length =
      c7pr.comments.length + c7pr.reviews.length + c7pr.commits.length ∧
    (buildTimeline goodSort c7pr).Pairwise
      (fun a b => a.createdAt ≤ b.createdAt) :=
  c7_timeline_complete goodSort sortOK_goodSort c7pr

/-! ### Claim C3: stability of the timeline merge -/

/-- Eleven standalone comments, one review and one commit, all carrying the
same timestamp: a 13-item timeline, the regime in which Go toolchains hand
`sort.Slice` to an unstable partition-based sort rather than the stable
small-range insertion sort. -/
def c3pr : PullRequest :=
  { comments := [⟨1, 0, none, 0⟩, ⟨2, 0, none, 0⟩, ⟨3, 0, none, 0⟩,
      ⟨4, 0, none, 0⟩, ⟨5, 0, none, 0⟩, ⟨6, 0, none, 0⟩, ⟨7, 0, none, 0⟩,
      ⟨8, 0, none, 0⟩, ⟨9, 0, none, 0⟩, ⟨10, 0, none, 0⟩, ⟨11, 0, none, 0⟩],
    reviews := [⟨100, 0, [], 0⟩],
    commits := [⟨"aaa1111", 0⟩] }

/-- Claim C3 counterexample: the claim asserts that equal-timestamp items
always keep their concatenation order (comment before review before commit).
The source sorts with `sort.Slice`, whose contract does not promise
stability; `badSort` satisfies that contract yet maps this 13-item
all-equal-timestamp timeline to its reversal, so the commit comes first and
the tag sequence differs from the concatenation's tag sequence. -/
theorem c3_counterexample :
    SortOK badSort ∧
    buildTimeline badSort c3pr = (timelineBase c3pr).reverse ∧
    (buildTimeline badSort c3pr).map (fun it => it.itemType) ≠
      (timelineBase c3pr).map (fun it => it.itemType) :=
  ⟨sortOK_badSort, by decide, by decide⟩

/-- Claim C3 amended: the timeline merge is an ascending (non-decreasing)
sort of the concatenation comments-then-reviews-then-commits; the relative
order of items with equal timestamps is not determined by the `sort.Slice`
contract, but whenever all timestamps are pairwise distinct the merge is the
unique ascending arrangement - identical for every conforming sort
implementation. -/
theorem c3_merge_ascending_deterministic (s₁ s₂ : SortFamily)
    (h₁ : SortOK s₁) (h₂ : SortOK s₂) (pr : PullRequest)
    (hd : (timelineBase pr).Pairwise (fun a b => a.createdAt ≠ b.createdAt)) :
    buildTimeline s₁ pr = buildTimeline s₂ pr ∧
    (buildTimeline s₁ pr).Perm (timelineBase pr) ∧
    (buildTimeline s₁ pr).Pairwise (fun a b => a.createdAt ≤ b.createdAt) := by
  have k₁ := h₁ (fun it : TimelineItem => it.createdAt) (timelineBase pr)
  have k₂ := h₂ (fun it : TimelineItem => it.createdAt) (timelineBase pr)
  have hperm : (buildTimeline s₁ pr).Perm (buildTimeline s₂ pr) :=
    k₁.1.trans k₂.1.symm
  have hd₁ : (buildTimeline s₁ pr).Pairwise
      (fun a b => a.createdAt ≠ b.createdAt) := by
    refine (List.Perm.pairwise_iff ?_ k₁.1).mpr hd
    intro a b h e
    exact h e.symm
  exact ⟨eq_of_perm_of_sorted_nodupkeys (fun it => it.createdAt) _ _ hperm
    k₁.2 k₂.2 hd₁, k₁.1, k₁.2⟩

theorem c3_merge_ascending_deterministic_witness :
    SortOK goodSort ∧ SortOK badSort ∧
    (timelineBase c7pr).Pairwise (fun a b => a.createdAt ≠ b.createdAt) ∧
    buildTimeline goodSort c7pr = buildTimeline badSort c7pr :=
  ⟨sortOK_goodSort, sortOK_badSort, by decide,
    (c3_merge_ascending_deterministic goodSort badSort sortOK_goodSort
      sortOK_badSort c7pr (by decide)).1⟩

/-! ### Claim C8: threads are attributed by the root comment's review id -/

/-- Claim C8: in the review annotation of `LoadPR`, the threads attached to a
review are exactly the threads (in order) whose first (root) comment carries
an owning-review reference equal to the review's id. -/
theorem c8_threads_by_root_review (reviews : List Review)
    (ts : List CommentThread) (rcs : List Comment) (r' : Review)
    (h : r' ∈ annotateReviews reviews ts rcs) :
    r'.threads = ts.filter (fun t =>
      match t.comments with
      | [] => false
      | c :: _ => c.pullRequestReviewID == r'.id) := by
  rcases List.mem_map.mp h with ⟨r, _, rfl⟩
  simpa using lookup_threadsByReview ts r.id

theorem c8_threads_by_root_review_witness :
    (⟨7, 0, [⟨[⟨1, 10, none, 7⟩]⟩], 0⟩ : Review) ∈
      annotateReviews [⟨7, 0, [], 0⟩]
        [⟨[⟨1, 10, none, 7⟩]⟩, ⟨[⟨2, 11, none, 8⟩]⟩] [] ∧
    (⟨7, 0, [⟨[⟨1, 10, none, 7⟩]⟩], 0⟩ : Review).threads =
      ([⟨[⟨1, 10, none, 7⟩]⟩, ⟨[⟨2, 11, none, 8⟩]⟩] :
          List CommentThread).filter (fun t =>
        match t.comments with
        | [] => false
        | c :: _ => c.pullRequestReviewID ==
            (⟨7, 0, [⟨[⟨1, 10, none, 7⟩]⟩], 0⟩ : Review).id) :=
  ⟨by decide, c8_threads_by_root_review [⟨7, 0, [], 0⟩]
    [⟨[⟨1, 10, none, 7⟩]⟩, ⟨[⟨2, 11, none, 8⟩]⟩] []
    (⟨7, 0, [⟨[⟨1, 10, none, 7⟩]⟩], 0⟩ : Review) (by decide)⟩

/-! ### Claim C9: the orphan reply count -/

/-- Claim C9: in the review annotation of `LoadPR`, the reply count attached
to a review equals the number of input review comments whose parent reference
is non-nil and whose own owning-review reference equals that review's id,
independent of the thread grouping (the count never reads the threads). -/
theorem c9_orphan_reply_count (reviews : List Review)
    (ts : List CommentThread) (rcs : List Comment) (r' : Review)
    (h : r' ∈ annotateReviews reviews ts rcs) :
    r'.replyCount = rcs.countP (fun c =>
      c.inReplyToID.isSome && c.pullRequestReviewID == r'.id) := by
  rcases List.mem_map.mp h with ⟨r, _, rfl⟩
  simpa using lookup_replyCountByReview rcs r.id

theorem c9_orphan_reply_count_witness :
    (⟨7, 0, [], 2⟩ : Review) ∈
      annotateReviews [⟨7, 0, [], 0⟩] []
        [⟨1, 10, none, 7⟩, ⟨2, 11, some 1, 7⟩, ⟨3, 12, some 1, 7⟩,
          ⟨4, 13, some 1, 8⟩] ∧
    (⟨7, 0, [], 2⟩ : Review).replyCount =
      ([⟨1, 10, none, 7⟩, ⟨2, 11, some 1, 7⟩, ⟨3, 12, some 1, 7⟩,
          ⟨4, 13, some 1, 8⟩] : List Comment).countP (fun c =>
        c.inReplyToID.isSome && c.pullRequestReviewID ==
          (⟨7, 0, [], 2⟩ : Review).id) :=
  ⟨by decide, c9_orphan_reply_count [⟨7, 0, [], 0⟩] []
    [⟨1, 10, none, 7⟩, ⟨2, 11, some 1, 7⟩, ⟨3, 12, some 1, 7⟩,
      ⟨4, 13, some 1, 8⟩] (⟨7, 0, [], 2⟩ : Review) (by decide)⟩

/-! ### Claim C10: threads matching no review are silently dropped -/

/-- Claim C10: a thread whose root comment's owning-review id matches no
fetched review (including a root with no owning-review reference, which
carries key 0) is attached to no review at all by the annotation: it appears
in no annotated review's thread list, and no error is raised. -/
theorem c10_unmatched_thread_dropped (reviews : List Review)
    (ts : List CommentThread) (rcs : List Comment) (t : CommentThread)
    (hroot : ∀ c, t.comments.head? = some c →
      ∀ r ∈ reviews, r.id ≠ c.pullRequestReviewID)
    (r' : Review) (h : r' ∈ annotateReviews reviews ts rcs) :
    t ∉ r'.threads := by
  rcases List.mem_map.mp h with ⟨r, hr, rfl⟩
  intro hmem
  have hmem' : t ∈ ts.filter (fun t =>
      match t.comments with
      | [] => false
      | c :: _ => c.pullRequestReviewID == r.id) := by
    have hth : ({ r with
        threads := (lookupMap (threadsByReview ts) r.id).getD [],
        replyCount :=
          (lookupMap (replyCountByReview rcs) r.id).getD 0 } : Review).threads
        = (lookupMap (threadsByReview ts) r.id).getD [] := rfl
    rw [hth, lookup_threadsByReview ts r.id] at hmem
    exact hmem
  have hpred := List.of_mem_filter hmem'
  cases hco : t.comments with
  | nil => rw [hco] at hpred; simp at hpred
  | cons c rest =>
    rw [hco] at hpred
    simp only [beq_iff_eq] at hpred
    refine hroot c ?_ r hr hpred.symm
    rw [hco]
    rfl

theorem c10_unmatched_thread_dropped_witness :
    (∀ c, (⟨[⟨1, 10, none, 0⟩]⟩ : CommentThread).comments.head? = some c →
      ∀ r ∈ [(⟨7, 0, [], 0⟩ : Review)], r.id ≠ c.pullRequestReviewID) ∧
    (⟨7, 0, [], 0⟩ : Review) ∈
      annotateReviews [⟨7, 0, [], 0⟩] [⟨[⟨1, 10, none, 0⟩]⟩] [] ∧
    (⟨[⟨1, 10, none, 0⟩]⟩ : CommentThread) ∉ (⟨7, 0, [], 0⟩ : Review).threads := by
  have hroot : ∀ c, (⟨[⟨1, 10, none, 0⟩]⟩ : CommentThread).comments.head?
      = some c → ∀ r ∈ [(⟨7, 0, [], 0⟩ : Review)], r.id ≠ c.pullRequestReviewID := by
    intro c hc
    have : c = ⟨1, 10, none, 0⟩ := by
      simpa using hc.symm
    subst this
    decide
  exact ⟨hroot, by decide,
    c10_unmatched_thread_dropped [⟨7, 0, [], 0⟩] [⟨[⟨1, 10, none, 0⟩]⟩] []
      (⟨[⟨1, 10, none, 0⟩]⟩ : CommentThread) hroot (⟨7, 0, [], 0⟩ : Review)
      (by decide)⟩

/-! ### Claim C1: conservation of comments by thread resolution -/

/-- Claim C1 counterexample: the claim asserts that no comment is lost, even
when a parent chain ends at a dangling id.  A single comment replying to the
absent id 99 is grouped under key 99, but threads are emitted only for ids of
parentless comments, so `groupIntoThreads` returns the empty thread list: the
comment appears in no output thread (under every conforming sort; both
concrete sorts agree). -/
theorem c1_counterexample :
    groupIntoThreads goodSort [⟨2, 5, some 99, 0⟩] = some [] ∧
    groupIntoThreads badSort [⟨2, 5, some 99, 0⟩] = some [] ∧
    ([⟨2, 5, some 99, 0⟩] : List Comment) ≠ [] :=
  ⟨by decide, by decide, by decide⟩

/-- Claim C1 amended: provided comment ids are distinct, and every reply's
parent chain resolves to a comment with no parent reference that occurs
earlier in the input than the reply (`RootsPrecede` - ruling out dangling
chains, reference cycles, and a root arriving after one of its replies, each
of which loses comments), the flattened output threads are a permutation of
the input: every comment appears in exactly one thread, with no loss and no
duplication. -/
theorem c1_thread_conservation (sortBy : SortFamily) (hs : SortOK sortBy)
    (cs : List Comment) (hnd : (cs.map (fun c => c.id)).Nodup)
    (hrp : RootsPrecede cs) :
    ∃ ts, groupIntoThreads sortBy cs = some ts ∧
      ((ts.map (fun t => t.comments)).flatten).Perm cs := by
  obtain ⟨st', hfold, _, hperm⟩ :=
    buildGroups_perm_aux cs hnd hrp cs [] ⟨[], []⟩ rfl rfl (by simp)
      (by intro k hk; simp [getGroup, lookupMap] at hk)
  refine ⟨assembleThreads sortBy (commentByID cs) st', ?_, ?_⟩
  · show (buildGroups cs).map (assembleThreads sortBy (commentByID cs)) = _
    rw [show buildGroups cs = some st' from hfold]
    rfl
  · have h1 := (hs (rootKey (commentByID cs)) st'.rootIDs).1
    have h2 : ∀ k ∈ st'.rootIDs,
        (sortBy (fun a b => decide (a.createdAt < b.createdAt))
          (getGroup st'.rootToReplies k)).Perm
          (getGroup st'.rootToReplies k) :=
      fun k _ => (hs (fun c : Comment => c.createdAt) _).1
    have hmap : (assembleThreads sortBy (commentByID cs) st').map
        (fun t => t.comments)
        = (sortBy (fun i j => decide (rootKey (commentByID cs) i <
            rootKey (commentByID cs) j)) st'.rootIDs).map
          (fun k => sortBy (fun a b => decide (a.createdAt < b.createdAt))
            (getGroup st'.rootToReplies k)) := by
      simp [assembleThreads, List.map_map, Function.comp]
    rw [hmap]
    refine List.Perm.trans ?_ hperm
    refine List.Perm.trans ((h1.map _).flatten) ?_
    exact flatten_map_perm st'.rootIDs h2

theorem rootsPrecede_c1w :
    RootsPrecede [⟨1, 10, none, 7⟩, ⟨2, 20, some 1, 7⟩] := by
  intro pre c suf heq p hp
  cases pre with
  | nil =>
    rw [List.nil_append] at heq
    injection heq with h1 h2
    rw [← h1] at hp
    simp at hp
  | cons x pre' =>
    cases pre' with
    | nil =>
      rw [List.cons_append, List.nil_append] at heq
      injection heq with h1 h2
      injection h2 with h2a h2b
      rw [← h2a] at hp
      have hp1 : p = 1 := by simpa using hp.symm
      subst hp1
      refine ⟨⟨1, 10, none, 7⟩, ?_, rfl, by decide⟩
      rw [← h1]
      exact List.mem_cons_self _ _
    | cons y pre'' =>
      exfalso
      have hlen := congrArg List.length heq
      simp [List.length_append] at hlen

theorem c1_thread_conservation_witness :
    ((([⟨1, 10, none, 7⟩, ⟨2, 20, some 1, 7⟩] : List Comment).map
        (fun c => c.id)).Nodup) ∧
    RootsPrecede [⟨1, 10, none, 7⟩, ⟨2, 20, some 1, 7⟩] ∧
    ∃ ts, groupIntoThreads goodSort [⟨1, 10, none, 7⟩, ⟨2, 20, some 1, 7⟩]
        = some ts ∧
      ((ts.map (fun t => t.comments)).flatten).Perm
        [⟨1, 10, none, 7⟩, ⟨2, 20, some 1, 7⟩] :=
  ⟨by decide, rootsPrecede_c1w,
    c1_thread_conservation goodSort sortOK_goodSort
      [⟨1, 10, none, 7⟩, ⟨2, 20, some 1, 7⟩] (by decide) rootsPrecede_c1w⟩

/-! ### Claim C2: totality of the parent-chain walk -/

/-- Claim C2 counterexample: the claim asserts termination for every
well-typed input, including reference cycles.  On the one-comment cycle
(a comment replying to its own id) the Go `for` loop never breaks: the walk
returns `none` at every fuel (`WalkDiverges`), so the model of
`groupIntoThreads` returns `none` rather than a result. -/
theorem c2_counterexample :
    WalkDiverges (commentByID [⟨1, 10, some 1, 0⟩]) 1 ∧
    buildGroups [⟨1, 10, some 1, 0⟩] = none ∧
    groupIntoThreads goodSort [⟨1, 10, some 1, 0⟩] = none := by
  refine ⟨?_, by decide, by decide⟩
  intro fuel
  induction fuel with
  | zero => rfl
  | succ n ih =>
    have hby : commentByID [⟨1, 10, some 1, 0⟩] 1
        = some ⟨1, 10, some 1, 0⟩ := by decide
    rw [findRoot_step hby rfl n]
    exact ih

/-- Claim C2 amended: thread resolution returns a result for every input on
which each reply's parent-chain walk terminates (in particular, every input
whose `in_reply_to` references are acyclic); a reference cycle makes the walk
- and the Go function - diverge. -/
theorem c2_total_on_terminating (sortBy : SortFamily) (cs : List Comment)
    (h : ∀ c ∈ cs, ∀ p, c.inReplyToID = some p →
      (findRoot (commentByID cs) (cs.length + 1) p).isSome) :
    (groupIntoThreads sortBy cs).isSome := by
  obtain ⟨st', hst'⟩ := foldlM_processComment_isSome (commentByID cs)
    (cs.length + 1) cs ⟨[], []⟩ h
  simp [groupIntoThreads, buildGroups, hst']

theorem c2w_hyp : ∀ c ∈ ([⟨1, 10, none, 0⟩, ⟨2, 20, some 1, 0⟩] : List Comment),
    ∀ p, c.inReplyToID = some p →
    (findRoot (commentByID [⟨1, 10, none, 0⟩, ⟨2, 20, some 1, 0⟩])
      (([⟨1, 10, none, 0⟩, ⟨2, 20, some 1, 0⟩] : List Comment).length + 1)
      p).isSome := by
  intro c hc p hp
  rcases List.mem_cons.mp hc with rfl | hc
  · simp at hp
  · rcases List.mem_cons.mp hc with rfl | hc
    · have hp1 : p = 1 := by simpa using hp.symm
      subst hp1
      decide
    · cases hc

theorem c2_total_on_terminating_witness :
    (∀ c ∈ ([⟨1, 10, none, 0⟩, ⟨2, 20, some 1, 0⟩] : List Comment),
      ∀ p, c.inReplyToID = some p →
      (findRoot (commentByID [⟨1, 10, none, 0⟩, ⟨2, 20, some 1, 0⟩])
        (([⟨1, 10, none, 0⟩, ⟨2, 20, some 1, 0⟩] : List Comment).length + 1)
        p).isSome) ∧
    (groupIntoThreads goodSort
      [⟨1, 10, none, 0⟩, ⟨2, 20, some 1, 0⟩]).isSome :=
  ⟨c2w_hyp, c2_total_on_terminating goodSort
    [⟨1, 10, none, 0⟩, ⟨2, 20, some 1, 0⟩] c2w_hyp⟩

/-! ### Claim C4: dangling parent references -/

/-- Claim C4: for a comment `c` whose parent reference is an id `p` absent
from the input: the walk terminates at once, returning the unresolved id `p`
itself (not any resolvable ancestor); `c` is filed in the group keyed by `p`;
every comment replying to `c` lands in that same group (the broken chain
stays together); and `p` never becomes a thread root id (the group is not
emitted as `c`'s own singleton thread). -/
theorem c4_dangling_parent (cs : List Comment)
    (hnd : (cs.map (fun c => c.id)).Nodup) (c : Comment) (hc : c ∈ cs)
    (p : Int) (hp : c.inReplyToID = some p)
    (hdangle : p ∉ cs.map (fun c => c.id))
    (st : GroupState) (hb : buildGroups cs = some st) :
    findRoot (commentByID cs) (cs.length + 1) p = some p ∧
    c ∈ getGroup st.rootToReplies p ∧
    (∀ d ∈ cs, d.inReplyToID = some c.id → d ∈ getGroup st.rootToReplies p) ∧
    (∀ d ∈ cs, ∀ q, d.inReplyToID = some q →
      findRoot (commentByID cs) (cs.length + 1) q = some p →
      d ∈ getGroup st.rootToReplies p) ∧
    p ∉ st.rootIDs := by
  have hbid : commentByID cs p = none := commentByID_eq_none hdangle
  have hwalk : findRoot (commentByID cs) (cs.length + 1) p = some p :=
    findRoot_of_none hbid cs.length
  have hner : ∀ d ∈ cs, d.id ≠ p := by
    intro d hd he
    exact hdangle (he ▸ List.mem_map_of_mem (fun c => c.id) hd)
  have hb' : List.foldlM (processComment (commentByID cs) (cs.length + 1))
      ⟨[], []⟩ cs = some st := hb
  refine ⟨hwalk, ?_, ?_, ?_, ?_⟩
  · exact mem_getGroup_of_reply (commentByID cs) (cs.length + 1) cs _ st hb'
      c hc p p hp hwalk hner
  · intro d hd hdc
    obtain ⟨n, hn⟩ : ∃ n, cs.length = n + 1 := by
      cases cs with
      | nil => cases hc
      | cons a t => exact ⟨t.length, rfl⟩
    have hwalkc : findRoot (commentByID cs) (cs.length + 1) c.id = some p := by
      rw [hn, findRoot_step (commentByID_of_mem hnd hc) hp (n + 1)]
      exact findRoot_of_none hbid n
    exact mem_getGroup_of_reply (commentByID cs) (cs.length + 1) cs _ st hb'
      d hd c.id p hdc hwalkc hner
  · intro d hd q hdq hq
    exact mem_getGroup_of_reply (commentByID cs) (cs.length + 1) cs _ st hb'
      d hd q p hdq hq hner
  · intro hmem
    have hspec := rootIDs_spec (commentByID cs) (cs.length + 1) cs _ st hb'
    rw [hspec] at hmem
    simp only [List.nil_append] at hmem
    rcases List.mem_map.mp hmem with ⟨d, hdmem, hdid⟩
    exact hner d ((List.filter_sublist cs).mem hdmem) hdid

/-- Concrete input for the C4 witness: comment 1 replies to the dangling id
99, comment 2 replies to comment 1. -/
def c4cs : List Comment := [⟨1, 10, some 99, 0⟩, ⟨2, 11, some 1, 0⟩]

/-- The grouping state `buildGroups` produces on `c4cs`: both comments of the
broken chain are filed together under the unresolved key 99, and `rootIDs`
stays empty. -/
def c4st : GroupState :=
  { rootIDs := [],
    rootToReplies := [(99, [⟨1, 10, some 99, 0⟩, ⟨2, 11, some 1, 0⟩]),
      (99, [⟨1, 10, some 99, 0⟩])] }

theorem c4_dangling_parent_witness :
    ((c4cs.map (fun c => c.id)).Nodup) ∧
    (⟨1, 10, some 99, 0⟩ : Comment) ∈ c4cs ∧
    (99 : Int) ∉ c4cs.map (fun c => c.id) ∧
    buildGroups c4cs = some c4st ∧
    (findRoot (commentByID c4cs) (c4cs.length + 1) 99 = some 99 ∧
      (⟨1, 10, some 99, 0⟩ : Comment) ∈ getGroup c4st.rootToReplies 99 ∧
      (∀ d ∈ c4cs, d.inReplyToID = some 1 →
        d ∈ getGroup c4st.rootToReplies 99) ∧
      (∀ d ∈ c4cs, ∀ q, d.inReplyToID = some q →
        findRoot (commentByID c4cs) (c4cs.length + 1) q = some 99 →
        d ∈ getGroup c4st.rootToReplies 99) ∧
      (99 : Int) ∉ c4st.rootIDs) :=
  ⟨by decide, by decide, by decide, by decide,
    c4_dangling_parent c4cs (by decide) ⟨1, 10, some 99, 0⟩ (by decide) 99 rfl
      (by decide) c4st (by decide)⟩

/-! ### Claim C5: thread order and the position of the root -/

/-- Claim C5 counterexample: the claim asserts that the parentless root is
always the first element of its thread.  With a root at timestamp 10 and a
reply at timestamp 5, the chronological sort puts the reply first (forced for
every conforming sort, and equal under both concrete sorts), so the thread's
first element carries a parent reference. -/
theorem c5_counterexample :
    groupIntoThreads goodSort [⟨1, 10, none, 0⟩, ⟨2, 5, some 1, 0⟩] =
      some [⟨[⟨2, 5, some 1, 0⟩, ⟨1, 10, none, 0⟩]⟩] ∧
    groupIntoThreads badSort [⟨1, 10, none, 0⟩, ⟨2, 5, some 1, 0⟩] =
      some [⟨[⟨2, 5, some 1, 0⟩, ⟨1, 10, none, 0⟩]⟩] ∧
    (⟨2, 5, some 1, 0⟩ : Comment).inReplyToID ≠ none :=
  ⟨by decide, by decide, by decide⟩

theorem head_of_strict_min {L : List Comment}
    (hpw : L.Pairwise (fun a b => a.createdAt ≤ b.createdAt))
    (c : Comment) (hc : c ∈ L)
    (hmin : ∀ d ∈ L, d ≠ c → c.createdAt < d.createdAt) :
    L.head? = some c := by
  cases L with
  | nil => cases hc
  | cons h0 rest =>
    by_cases he : h0 = c
    · simp [he]
    · exfalso
      have h1 : c ∈ rest := by
        rcases List.mem_cons.mp hc with h | h
        · exact absurd h.symm he
        · exact h
      have h2 : h0.createdAt ≤ c.createdAt := (List.pairwise_cons.mp hpw).1 c h1
      have h3 : c.createdAt < h0.createdAt :=
        hmin h0 (List.mem_cons_self _ _) he
      omega

/-- Claim C5 amended: in every thread produced by `groupIntoThreads`, the
comments are non-decreasing in creation timestamp, and the parentless root is
the first element provided its creation timestamp strictly precedes that of
every other comment of the thread.  (The counterexample shows the
unconditional root-first claim fails when a reply predates its root.) -/
theorem c5_thread_order (sortBy : SortFamily) (hs : SortOK sortBy)
    (cs : List Comment) (ts : List CommentThread)
    (h : groupIntoThreads sortBy cs = some ts) (t : CommentThread)
    (ht : t ∈ ts) :
    t.comments.Pairwise (fun a b => a.createdAt ≤ b.createdAt) ∧
    ∀ c ∈ t.comments, c.inReplyToID = none →
      (∀ d ∈ t.comments, d ≠ c → c.createdAt < d.createdAt) →
      t.comments.head? = some c := by
  rw [groupIntoThreads] at h
  cases hb : buildGroups cs with
  | none => rw [hb] at h; simp at h
  | some st =>
    rw [hb] at h
    simp at h
    rw [← h] at ht
    rcases List.mem_map.mp ht with ⟨k, _, hteq⟩
    have hsort := hs (fun c : Comment => c.createdAt)
      (getGroup st.rootToReplies k)
    have hcomm : t.comments = sortBy
        (fun a b => decide (a.createdAt < b.createdAt))
        (getGroup st.rootToReplies k) := by
      rw [← hteq]
    rw [hcomm]
    refine ⟨hsort.2, ?_⟩
    intro c hcmem hroot hmin
    exact head_of_strict_min hsort.2 c hcmem hmin

theorem c5_thread_order_witness :
    groupIntoThreads goodSort [⟨1, 10, none, 0⟩, ⟨2, 20, some 1, 0⟩] =
      some [⟨[⟨1, 10, none, 0⟩, ⟨2, 20, some 1, 0⟩]⟩] ∧
    (⟨[⟨1, 10, none, 0⟩, ⟨2, 20, some 1, 0⟩]⟩ : CommentThread) ∈
      [(⟨[⟨1, 10, none, 0⟩, ⟨2, 20, some 1, 0⟩]⟩ : CommentThread)] ∧
    ((⟨[⟨1, 10, none, 0⟩, ⟨2, 20, some 1, 0⟩]⟩ :
        CommentThread).comments.Pairwise
      (fun a b => a.createdAt ≤ b.createdAt) ∧
    ∀ c ∈ (⟨[⟨1, 10, none, 0⟩, ⟨2, 20, some 1, 0⟩]⟩ :
        CommentThread).comments, c.inReplyToID = none →
      (∀ d ∈ (⟨[⟨1, 10, none, 0⟩, ⟨2, 20, some 1, 0⟩]⟩ :
          CommentThread).comments, d ≠ c → c.createdAt < d.createdAt) →
      (⟨[⟨1, 10, none, 0⟩, ⟨2, 20, some 1, 0⟩]⟩ :
        CommentThread).comments.head? = some c) :=
  ⟨by decide, by decide,
    c5_thread_order goodSort sortOK_goodSort
      [⟨1, 10, none, 0⟩, ⟨2, 20, some 1, 0⟩]
      [⟨[⟨1, 10, none, 0⟩, ⟨2, 20, some 1, 0⟩]⟩] (by decide)
      (⟨[⟨1, 10, none, 0⟩, ⟨2, 20, some 1, 0⟩]⟩ : CommentThread) (by decide)⟩

/-! ### Claim C6: determinism and tie stability of thread resolution -/

/-- A root and twelve replies to it, all replies sharing one timestamp: a
13-element group, the regime in which Go toolchains hand `sort.Slice` to an
unstable partition-based sort rather than the stable small-range insertion
sort. -/
def c6cs : List Comment :=
  [⟨1, 0, none, 0⟩, ⟨2, 5, some 1, 0⟩, ⟨3, 5, some 1, 0⟩, ⟨4, 5, some 1, 0⟩,
   ⟨5, 5, some 1, 0⟩, ⟨6, 5, some 1, 0⟩, ⟨7, 5, some 1, 0⟩, ⟨8, 5, some 1, 0⟩,
   ⟨9, 5, some 1, 0⟩, ⟨10, 5, some 1, 0⟩, ⟨11, 5, some 1, 0⟩,
   ⟨12, 5, some 1, 0⟩, ⟨13, 5, some 1, 0⟩]

/-- Claim C6 counterexample: the claim asserts that equal-timestamp comments
of a group keep their input order in the output.  The source sorts each group
with `sort.Slice`, whose contract does not promise stability; `badSort`
satisfies that contract yet emits the twelve equal-timestamp replies in
reversed input order (the stable `goodSort` keeps them in input order, so the
output is not determined by the source's sorting contract either). -/
theorem c6_counterexample :
    SortOK badSort ∧
    groupIntoThreads badSort c6cs =
      some [⟨[⟨1, 0, none, 0⟩, ⟨13, 5, some 1, 0⟩, ⟨12, 5, some 1, 0⟩,
        ⟨11, 5, some 1, 0⟩, ⟨10, 5, some 1, 0⟩, ⟨9, 5, some 1, 0⟩,
        ⟨8, 5, some 1, 0⟩, ⟨7, 5, some 1, 0⟩, ⟨6, 5, some 1, 0⟩,
        ⟨5, 5, some 1, 0⟩, ⟨4, 5, some 1, 0⟩, ⟨3, 5, some 1, 0⟩,
        ⟨2, 5, some 1, 0⟩]⟩] ∧
    groupIntoThreads goodSort c6cs = some [⟨c6cs⟩] :=
  ⟨sortOK_badSort, by decide, by decide⟩

/-- Claim C6 amended: thread resolution is a pure function of the input
collection, but the relative order of equal-timestamp comments (and of
equal-timestamp thread roots) is not determined by the `sort.Slice` contract.
When the comment ids are distinct and the creation timestamps are pairwise
distinct, the output is identical for every conforming sort implementation. -/
theorem c6_deterministic_on_distinct (s₁ s₂ : SortFamily)
    (h₁ : SortOK s₁) (h₂ : SortOK s₂) (cs : List Comment)
    (hid : (cs.map (fun c => c.id)).Nodup)
    (hts : (cs.map (fun c => c.createdAt)).Nodup) :
    groupIntoThreads s₁ cs = groupIntoThreads s₂ cs := by
  rw [groupIntoThreads, groupIntoThreads]
  cases hb : buildGroups cs with
  | none => rfl
  | some st =>
    have hb' : List.foldlM (processComment (commentByID cs) (cs.length + 1))
        ⟨[], []⟩ cs = some st := hb
    simp only [Option.map_some']
    have hpw : cs.Pairwise (fun a b => a.createdAt ≠ b.createdAt) :=
      List.pairwise_map.mp hts
    have hsub : ∀ k, (getGroup st.rootToReplies k).Sublist cs := by
      intro k
      have h0 : ∀ k', (getGroup ((⟨[], []⟩ : GroupState)).rootToReplies
          k').Sublist ([] : List Comment) := by
        intro k'
        simp [getGroup, lookupMap]
      simpa using getGroup_sublist (commentByID cs) (cs.length + 1) cs
        ⟨[], []⟩ st [] hb' h0 k
    have hgroup : ∀ k,
        s₁ (fun a b => decide (a.createdAt < b.createdAt))
          (getGroup st.rootToReplies k)
        = s₂ (fun a b => decide (a.createdAt < b.createdAt))
          (getGroup st.rootToReplies k) := by
      intro k
      have k₁ := h₁ (fun c : Comment => c.createdAt) (getGroup st.rootToReplies k)
      have k₂ := h₂ (fun c : Comment => c.createdAt) (getGroup st.rootToReplies k)
      have hdk : (s₁ (fun a b => decide (a.createdAt < b.createdAt))
          (getGroup st.rootToReplies k)).Pairwise
          (fun a b => a.createdAt ≠ b.createdAt) := by
        refine (List.Perm.pairwise_iff ?_ k₁.1).mpr
          (hpw.sublist (hsub k))
        intro a b h e
        exact h e.symm
      exact eq_of_perm_of_sorted_nodupkeys (fun c => c.createdAt) _ _
        (k₁.1.trans k₂.1.symm) k₁.2 k₂.2 hdk
    have hroots : st.rootIDs =
        (cs.filter (fun c => c.inReplyToID.isNone)).map (fun c => c.id) := by
      simpa using rootIDs_spec (commentByID cs) (cs.length + 1) cs ⟨[], []⟩
        st hb'
    have hrootpw : st.rootIDs.Pairwise
        (fun i j => rootKey (commentByID cs) i ≠ rootKey (commentByID cs) j) := by
      rw [hroots, List.pairwise_map]
      have hfpw : (cs.filter (fun c => c.inReplyToID.isNone)).Pairwise
          (fun a b => a.createdAt ≠ b.createdAt) :=
        hpw.sublist (List.filter_sublist cs)
      refine List.Pairwise.imp_of_mem ?_ hfpw
      intro a b ha hb hne
      have hka : rootKey (commentByID cs) a.id = a.createdAt := by
        rw [rootKey, commentByID_of_mem hid ((List.filter_sublist cs).mem ha)]
      have hkb : rootKey (commentByID cs) b.id = b.createdAt := by
        rw [rootKey, commentByID_of_mem hid ((List.filter_sublist cs).mem hb)]
      rw [hka, hkb]
      exact hne
    have hrooteq : s₁ (fun i j => decide (rootKey (commentByID cs) i <
          rootKey (commentByID cs) j)) st.rootIDs
        = s₂ (fun i j => decide (rootKey (commentByID cs) i <
          rootKey (commentByID cs) j)) st.rootIDs := by
      have k₁ := h₁ (rootKey (commentByID cs)) st.rootIDs
      have k₂ := h₂ (rootKey (commentByID cs)) st.rootIDs
      have hdk : (s₁ (fun a b => decide (rootKey (commentByID cs) a <
          rootKey (commentByID cs) b)) st.rootIDs).Pairwise
          (fun i j => rootKey (commentByID cs) i ≠ rootKey (commentByID cs) j) := by
        refine (List.Perm.pairwise_iff ?_ k₁.1).mpr hrootpw
        intro a b h e
        exact h e.symm
      exact eq_of_perm_of_sorted_nodupkeys (rootKey (commentByID cs)) _ _
        (k₁.1.trans k₂.1.symm) k₁.2 k₂.2 hdk
    show some (assembleThreads s₁ (commentByID cs) st)
        = some (assembleThreads s₂ (commentByID cs) st)
    rw [assembleThreads, assembleThreads, hrooteq]
    exact congrArg some
      (List.map_congr_left (fun rootID _ => by rw [hgroup rootID]))

theorem c6_deterministic_on_distinct_witness :
    ((([⟨1, 10, none, 0⟩, ⟨2, 20, some 1, 0⟩] : List Comment).map
        (fun c => c.id)).Nodup) ∧
    ((([⟨1, 10, none, 0⟩, ⟨2, 20, some 1, 0⟩] : List Comment).map
        (fun c => c.createdAt)).Nodup) ∧
    groupIntoThreads goodSort [⟨1, 10, none, 0⟩, ⟨2, 20, some 1, 0⟩]
      = groupIntoThreads badSort [⟨1, 10, none, 0⟩, ⟨2, 20, some 1, 0⟩] :=
  ⟨by decide, by decide,
    c6_deterministic_on_distinct goodSort badSort sortOK_goodSort
      sortOK_badSort [⟨1, 10, none, 0⟩, ⟨2, 20, some 1, 0⟩]
      (by decide) (by decide)⟩

end Prview
